import Mathlib

/-!
Verification of the omni-system task-graph execution and self-healing engine.

The definitions below are a shallow embedding of the Python sources:
* `src/core/swarm.py` — `SwarmAgent.construct` (the wave scheduler),
  `SwarmAgent.apply_fix` and `SwarmAgent._write_file`;
* `src/core/repair_agent.py` — `RepairAgent.repair` (the escalating repair
  state machine) and `RepairAgent._run_commands`;
* `src/core/resource_manager.py` — `AdaptiveConcurrency.adjust_workers`.

Python sets are modelled as `Finset String`, dictionaries of files as
association lists, percentages (floats compared but never combined
arithmetically) as `ℚ`, worker counts as `ℤ`, and the external LLM
(Generator) and verifier as oracle functions supplied as parameters.
-/

namespace Omni

/-- A task of the execution plan, as in `cortex.py` (`class Task`):
`task_id`, `task_description`, `output_files`, `depends_on`. -/
structure Task where
  task_id : String
  task_description : String
  output_files : List String
  depends_on : List String
deriving Repr, DecidableEq

/-- The set of task ids appearing in an execution plan. -/
def planIds (plan : List Task) : Finset String := (plan.map Task.task_id).toFinset

/-- The ready set computed at the top of the wave loop of
`SwarmAgent.construct` (`swarm.py` lines 111–115): tasks whose id is not yet
completed and all of whose dependencies are completed. -/
def ready_tasks (plan : List Task) (completed : Finset String) : List Task :=
  plan.filter fun t =>
    decide (t.task_id ∉ completed) && t.depends_on.all fun d => decide (d ∈ completed)

/-- Outcome of the wave loop of `SwarmAgent.construct`.  `completed` is the
`self.completed_tasks` set at exit; `waves` records, in order, the list of
task ids of each executed wave (the ids marked completed together after one
`asyncio.gather`).  `outOfFuel` is an artifact of the fuel-based embedding
and is proved unreachable for fuel `plan.length`. -/
inductive ConstructResult where
  | done (completed : Finset String) (waves : List (List String))
  | deadlock (completed : Finset String) (waves : List (List String))
  | outOfFuel (completed : Finset String) (waves : List (List String))
deriving DecidableEq

/-- The completed-id set carried by a `ConstructResult`. -/
def ConstructResult.completedSet : ConstructResult → Finset String
  | .done c _ => c
  | .deadlock c _ => c
  | .outOfFuel c _ => c

/-- The recorded waves of a `ConstructResult`. -/
def ConstructResult.wavesOf : ConstructResult → List (List String)
  | .done _ w => w
  | .deadlock _ w => w
  | .outOfFuel _ w => w

/-- Whether the fuel-based embedding ran out of fuel. -/
def ConstructResult.fuelExhausted : ConstructResult → Bool
  | .outOfFuel _ _ => true
  | _ => false

/-- The wave loop of `SwarmAgent.construct` (`swarm.py` lines 109–137):
`while len(completed) < len(execution_plan)`: compute the ready set; if it
is empty, take the deadlock branch (print the circular-dependency error and
`break`); otherwise run the whole ready set concurrently and add all its
ids to `completed`.  One unit of fuel is one loop iteration. -/
def construct_loop (plan : List Task) :
    Nat → Finset String → List (List String) → ConstructResult
  | fuel + 1, completed, waves =>
    if completed.card < plan.length then
      let ready := ready_tasks plan completed
      if ready.isEmpty then ConstructResult.deadlock completed waves
      else
        construct_loop plan fuel (completed ∪ (ready.map Task.task_id).toFinset)
          (waves ++ [ready.map Task.task_id])
    else ConstructResult.done completed waves
  | 0, completed, waves =>
    if completed.card < plan.length then ConstructResult.outOfFuel completed waves
    else ConstructResult.done completed waves

/-- Embedding of `SwarmAgent.construct`: the wave loop started from an empty completed
set.  Fuel `plan.length` suffices because every iteration that does not
exit adds at least one new id to `completed` (proved below). -/
def construct (plan : List Task) : ConstructResult :=
  construct_loop plan plan.length ∅ []

/-! ### File writing and fix application (`swarm.py`) -/

/-- The file system under the target directory, as an association list from
relative path to content.  `SwarmAgent._write_file` opens the path in mode
`w`, creating the file or replacing its content. -/
def write_file (fs : List (String × String)) (path content : String) :
    List (String × String) :=
  if fs.any fun p => p.1 = path then
    fs.map fun p => if p.1 = path then (path, content) else p
  else fs ++ [(path, content)]

/-- One `{file_path, new_content, reason}` triple of a FixPlan, as produced
by the repair strategies (`repair_agent.py` JSON schema).  A key that is
missing in the Python dict is modelled as the empty string, which Python's
truthiness test treats the same way. -/
structure Fix where
  file_path : String
  new_content : String
  reason : String
deriving Repr, DecidableEq

/-- A FixPlan: the `fixes` list plus the ordered `additional_commands`
list (`repair_agent.py` JSON schema; a missing `fixes` key is the empty
list, which Python's truthiness test treats the same way). -/
structure FixPlan where
  fixes : List Fix
  additional_commands : List String
deriving Repr, DecidableEq

/-- The file-writing loop of `SwarmAgent.apply_fix` (`swarm.py` lines
382–396): for each fix in order, if `file_path` or `new_content` is falsy
the fix is skipped as malformed, otherwise the file is overwritten. -/
def apply_fix (fs : List (String × String)) (fixes : List Fix) :
    List (String × String) :=
  fixes.foldl
    (fun acc fx =>
      if fx.file_path = "" ∨ fx.new_content = "" then acc
      else write_file acc fx.file_path fx.new_content)
    fs

/-- Outcome record of one shell command run by
`RepairAgent._run_commands`: the command text and its exit code (the
function prints success for exit code 0 and a failed-continuing notice
otherwise, and proceeds with the next command either way). -/
structure CmdRecord where
  cmd : String
  exit_code : Int
deriving Repr, DecidableEq

/-- Embedding of `RepairAgent._run_commands` (`repair_agent.py` lines 811–829): run every
command in listed order, recording each command's exit code; a nonzero exit
code is noted but never stops the loop.  The exit code of a command is an
oracle `cmd_exit` (the external shell). -/
def run_commands (cmds : List String) (cmd_exit : String → Int) : List CmdRecord :=
  cmds.map fun c => ⟨c, cmd_exit c⟩

/-! ### The repair state machine (`repair_agent.py`) -/

/-- The structured result of `ArbiterAgent.verify_and_refine` as consumed by
`RepairAgent.repair`: a `status` string plus the failure diagnostics. -/
structure VerificationResult where
  status : String
  command : String
  exit_code : Int
  stdout : String
  stderr : String
deriving Repr, DecidableEq

/-- One entry of `self.repair_history`: the `attempt_record` dict built in
`RepairAgent.repair` (lines 88–94), with `verification_error` present only
when a fix was applied and re-verification still failed. -/
structure AttemptRecord where
  attempt_number : Nat
  strategy_name : String
  error : VerificationResult
  fix_result : Option FixPlan
  success : Bool
  verification_error : Option VerificationResult
deriving Repr, DecidableEq

/-- The dict returned by `RepairAgent.repair`. -/
structure RepairReport where
  status : String
  strategy_used : Option String
  attempts : Nat
  final_error : Option String
deriving Repr, DecidableEq

/-- The `self.max_attempts` bound of `RepairAgent`. -/
def max_attempts : Nat := 8

/-- The ordered strategy names of `self.strategies` (`repair_agent.py`
lines 35–44), S0 through S7. -/
def strategyNames : List String :=
  ["Quick Fixes (Syntax & Imports)",
   "Logic Error Fixes",
   "Test Configuration Fixes",
   "Regenerate Failing Files",
   "Simplify Implementation",
   "Alternative Approach",
   "Minimal Viable Version",
   "META Cognitive Diagnosis"]

/-- Name of strategy `k` (0-based). -/
def strategyName (k : Nat) : String := strategyNames.getD k ""

/-- The external collaborators of `RepairAgent.repair`, supplied as oracles:
`propose k err history applied` is strategy `Sk`'s LLM call (it may read the
current error, the accumulated history and the project state, here
represented by the list of fix plans applied so far); `verify applied` is
`ArbiterAgent.verify_and_refine` on the project state reached after applying
the plans in `applied` (file writes and additional commands included). -/
structure RepairEnv where
  propose : Nat → VerificationResult → List AttemptRecord → List FixPlan → Option FixPlan
  verify : List FixPlan → VerificationResult

/-- The strategy loop of `RepairAgent.repair` (`repair_agent.py` lines
80–152), iterating over the remaining 0-based strategy indices `ks`.  Per
iteration: call the strategy; build the attempt record; if no plan or no
truthy `fixes` list, append a no-fix record and continue; otherwise apply
the plan (file writes, then additional commands — both folded into the
`applied` list the verifier sees) and re-verify.  On success, append the
record with `success := true` and return the success report; on failure,
append the record with the new `verification_error`, make the new result
the current error and continue.  When the strategies are exhausted, return
the failed report with `attempts = max_attempts` and the current error's
`stderr` as `final_error`.  The result carries the final history and the
list of applied plans. -/
def repair_loop (env : RepairEnv) :
    List Nat → VerificationResult → List AttemptRecord → List FixPlan →
      RepairReport × List AttemptRecord × List FixPlan
  | [], current_error, history, applied =>
    (⟨"failed", none, max_attempts, some current_error.stderr⟩, history, applied)
  | k :: rest, current_error, history, applied =>
    let fix_result := env.propose k current_error history applied
    match fix_result with
    | none =>
      repair_loop env rest current_error
        (history ++ [⟨k + 1, strategyName k, current_error, none, false, none⟩]) applied
    | some plan =>
      if plan.fixes.isEmpty then
        repair_loop env rest current_error
          (history ++ [⟨k + 1, strategyName k, current_error, some plan, false, none⟩])
          applied
      else
        let applied' := applied ++ [plan]
        let vres := env.verify applied'
        if vres.status = "success" then
          (⟨"success", some (strategyName k), k + 1, none⟩,
           history ++ [⟨k + 1, strategyName k, current_error, some plan, true, none⟩],
           applied')
        else
          repair_loop env rest vres
            (history ++ [⟨k + 1, strategyName k, current_error, some plan, false, some vres⟩])
            applied'

/-- Embedding of `RepairAgent.repair` on a fresh agent: the strategy loop over S0..S7
starting from the initial error, an empty history and the as-constructed
project state. -/
def repair (env : RepairEnv) (initial_error : VerificationResult) :
    RepairReport × List AttemptRecord × List FixPlan :=
  repair_loop env (List.range 8) initial_error [] []

/-! ### Adaptive concurrency (`resource_manager.py`) -/

/-- The `ResourceLimits` dataclass of `resource_manager.py` (threshold
fields used by `adjust_workers`; the defaults are 80.0, 85.0, 1, 3).
Percentages are modelled as rationals, worker counts as integers. -/
structure ResourceLimits where
  max_ram_percent : ℚ
  max_cpu_percent : ℚ
  min_workers : ℤ
  max_workers : ℤ
deriving Repr, DecidableEq

/-- Embedding of `AdaptiveConcurrency.adjust_workers` (`resource_manager.py` lines
72–93) as a pure function of the sampled percentages and the previous
worker count: critical overload reduces by 2 (floored at `min_workers`),
high load (hardcoded thresholds 75% RAM / 80% CPU) reduces by 1 (same
floor), low load (< 60% both) increases by 1 up to `max_workers`, and
otherwise the count is unchanged. -/
def adjust_workers (limits : ResourceLimits) (ram cpu : ℚ) (current : ℤ) : ℤ :=
  if ram > limits.max_ram_percent ∨ cpu > limits.max_cpu_percent then
    max limits.min_workers (current - 2)
  else if ram > 75 ∨ cpu > 80 then
    max limits.min_workers (current - 1)
  else if ram < 60 ∧ cpu < 60 ∧ current < limits.max_workers then
    min limits.max_workers (current + 1)
  else current

/-- Threshold bounds of the spec's `compute_limit` policy (§4.2). -/
structure SpecBounds where
  cpu_critical : ℚ
  memory_critical : ℚ
  cpu_warning : ℚ
  memory_warning : ℚ
  min_workers : ℤ
  max_workers : ℤ
deriving Repr, DecidableEq

/-- The spec's four-branch `compute_limit` policy, written from the spec's
words (§4.2): critical → decrease by 2 floored at `min_workers`; warning →
decrease by 1 floored at `min_workers`; both percentages below 60 with
headroom → increase by 1; otherwise unchanged.  This is the spec-side
definition of the refinement claim C6, to be compared with
`adjust_workers`. -/
def compute_limit_spec (b : SpecBounds) (cpu mem : ℚ) (prev : ℤ) : ℤ :=
  if cpu > b.cpu_critical ∨ mem > b.memory_critical then
    max b.min_workers (prev - 2)
  else if cpu > b.cpu_warning ∨ mem > b.memory_warning then
    max b.min_workers (prev - 1)
  else if cpu < 60 ∧ mem < 60 ∧ prev < b.max_workers then prev + 1
  else prev

/-! ### Derived notions about the scheduler -/

/-- Every dependency named in the plan refers to a task id present in the
plan (the spec's Graph well-formedness, §3). -/
def ClosedPlan (plan : List Task) : Prop :=
  ∀ t ∈ plan, ∀ d ∈ t.depends_on, d ∈ plan.map Task.task_id

/-- Acyclicity of the `depends_on` relation, stated through its standard
characterization on finite graphs: a rank function on ids that strictly
decreases along every dependency edge (dependencies rank strictly below
their dependents).  A topological order gives such a rank and conversely. -/
def RankedAcyclic (plan : List Task) (rank : String → Nat) : Prop :=
  ∀ t ∈ plan, ∀ d ∈ t.depends_on, rank d < rank t.task_id

instance decClosedPlan (plan : List Task) : Decidable (ClosedPlan plan) :=
  decidable_of_iff (∀ t ∈ plan, ∀ d ∈ t.depends_on, d ∈ plan.map Task.task_id) Iff.rfl

instance decRankedAcyclic (plan : List Task) (rank : String → Nat) :
    Decidable (RankedAcyclic plan rank) :=
  decidable_of_iff (∀ t ∈ plan, ∀ d ∈ t.depends_on, rank d < rank t.task_id) Iff.rfl

/-- A dependency cycle in the plan: a nonempty id list `cyc` such that for
every position `i`, some task of the plan carries id `cyc[i]` and depends on
`cyc[(i+1) % cyc.length]`. -/
def IsDepCycle (plan : List Task) (cyc : List String) : Prop :=
  cyc ≠ [] ∧ ∀ i, ∀ h : i < cyc.length, ∃ t ∈ plan,
    t.task_id = cyc.get ⟨i, h⟩ ∧
      cyc.get ⟨(i + 1) % cyc.length, Nat.mod_lt _ (Nat.lt_of_le_of_lt (Nat.zero_le i) h)⟩
        ∈ t.depends_on

instance decIsDepCycle (plan : List Task) (cyc : List String) :
    Decidable (IsDepCycle plan cyc) :=
  decidable_of_iff (cyc ≠ [] ∧ ∀ i, ∀ h : i < cyc.length, ∃ t ∈ plan,
    t.task_id = cyc.get ⟨i, h⟩ ∧
      cyc.get ⟨(i + 1) % cyc.length, Nat.mod_lt _ (Nat.lt_of_le_of_lt (Nat.zero_le i) h)⟩
        ∈ t.depends_on) Iff.rfl

/-- Reads a file of the modelled file system. -/
def read_file (fs : List (String × String)) (path : String) : Option String :=
  (fs.find? fun p => p.1 = path).map Prod.snd

/-- Wave-trace ordering: whenever id `x` is completed in wave `k`, every
dependency of every plan task carrying id `x` was completed in a strictly
earlier wave (it occurs in the concatenation of waves `0..k-1`). -/
def wave_order (plan : List Task) (waves : List (List String)) : Prop :=
  ∀ k, k < waves.length → ∀ x ∈ waves.getD k [], ∀ t ∈ plan, t.task_id = x →
    ∀ d ∈ t.depends_on, d ∈ (waves.take k).flatten

/-! ### Concrete inputs used by the closed-form checks -/

/-- The spec §8 end-to-end scenario: `A` with no dependencies, `B` and `C`
both depending on `A`. -/
def demoPlan : List Task :=
  [⟨"A", "schema", ["a.txt"], []⟩,
   ⟨"B", "api", ["b.txt"], ["A"]⟩,
   ⟨"C", "frontend", ["c.txt"], ["A"]⟩]

/-- A rank function witnessing acyclicity of `demoPlan`. -/
def demoRank (s : String) : Nat := if s = "A" then 0 else 1

/-- The spec §8 cycle scenario `X dependsOn Y`, `Y dependsOn X`, extended
with an independent task `A` that does not touch the cycle. -/
def cyclePlan : List Task :=
  [⟨"A", "independent", ["a.txt"], []⟩,
   ⟨"X", "needs Y", ["x.txt"], ["Y"]⟩,
   ⟨"Y", "needs X", ["y.txt"], ["X"]⟩]

/-- Five mutually independent tasks: the wave the repo's concurrency tests
run against a limit of 2. -/
def fiveTaskPlan : List Task :=
  [⟨"t0", "", [], []⟩, ⟨"t1", "", [], []⟩, ⟨"t2", "", [], []⟩,
   ⟨"t3", "", [], []⟩, ⟨"t4", "", [], []⟩]

/-- A failing verification result. -/
def failRes : VerificationResult := ⟨"failed", "npm test", 1, "", "boom"⟩

/-- A passing verification result. -/
def passRes : VerificationResult := ⟨"success", "npm test", 0, "", ""⟩

/-- Oracle under which no strategy proposes a fix and verification always
fails. -/
def envNoFix : RepairEnv := ⟨fun _ _ _ _ => none, fun _ => failRes⟩

/-- A nonempty fix plan used in the S2-success scenario. -/
def demoFixPlan : FixPlan :=
  ⟨[⟨"tests/conftest.py", "import pytest", "set up fixtures"⟩], ["pip install pytest"]⟩

/-- Oracle under which strategies S0 and S1 propose nothing, S2 proposes
`demoFixPlan`, and verification succeeds exactly once a plan has been
applied. -/
def envS2 : RepairEnv :=
  ⟨fun k _ _ _ => if k = 2 then some demoFixPlan else none,
   fun applied => if applied.isEmpty then failRes else passRes⟩

/-- The history the loop has accumulated when it reaches S2 under `envS2`:
one no-fix record for each of S0 and S1. -/
def histS2 : List AttemptRecord :=
  [⟨1, strategyName 0, failRes, none, false, none⟩,
   ⟨2, strategyName 1, failRes, none, false, none⟩]

/-- A one-file file system used by the fix-application checks. -/
def demoFS : List (String × String) := [("a.txt", "old")]

/-- A fix whose `new_content` is empty: Python's truthiness test treats it
as malformed. -/
def emptyContentFix : Fix := ⟨"a.txt", "", "clear the file"⟩

/-- A well-formed fix used by the fix-application witness. -/
def fixB : Fix := ⟨"b.txt", "new content", "overwrite"⟩

/-- The default `ResourceLimits()` of `resource_manager.py`. -/
def defaultLimits : ResourceLimits := ⟨80, 85, 1, 3⟩

/-! ### Basic facts about the wave loop -/

theorem mem_ready_tasks {plan : List Task} {completed : Finset String} {t : Task} :
    t ∈ ready_tasks plan completed ↔
      t ∈ plan ∧ t.task_id ∉ completed ∧ ∀ d ∈ t.depends_on, d ∈ completed := by
  simp [ready_tasks, List.mem_filter, List.all_eq_true, and_assoc]

/-- One productive loop iteration strictly grows the completed set. -/
theorem card_lt_of_ready_cons {plan : List Task} {completed : Finset String}
    {t : Task} {ts : List Task} (h : ready_tasks plan completed = t :: ts) :
    completed.card <
      (completed ∪ ((t :: ts).map Task.task_id).toFinset).card := by
  have ht : t ∈ ready_tasks plan completed := h ▸ List.mem_cons_self t ts
  have hid : t.task_id ∉ completed := (mem_ready_tasks.mp ht).2.1
  have hmem : t.task_id ∈ completed ∪ ((t :: ts).map Task.task_id).toFinset := by
    refine Finset.mem_union_right _ ?_
    simp
  refine Finset.card_lt_card (Finset.ssubset_def.mpr ⟨Finset.subset_union_left,
    fun hsub => hid (hsub hmem)⟩)

theorem construct_loop_step {plan : List Task} {completed : Finset String}
    {waves : List (List String)} {f : Nat} {t : Task} {ts : List Task}
    (hlt : completed.card < plan.length)
    (hready : ready_tasks plan completed = t :: ts) :
    construct_loop plan (f + 1) completed waves =
      construct_loop plan f (completed ∪ ((t :: ts).map Task.task_id).toFinset)
        (waves ++ [(t :: ts).map Task.task_id]) := by
  simp [construct_loop, hlt, hready]

theorem construct_loop_deadlock {plan : List Task} {completed : Finset String}
    {waves : List (List String)} {f : Nat}
    (hlt : completed.card < plan.length)
    (hready : ready_tasks plan completed = []) :
    construct_loop plan (f + 1) completed waves =
      ConstructResult.deadlock completed waves := by
  simp [construct_loop, hlt, hready]

theorem construct_loop_done {plan : List Task} {completed : Finset String}
    {waves : List (List String)} {fuel : Nat}
    (hge : ¬ completed.card < plan.length) :
    construct_loop plan fuel completed waves =
      ConstructResult.done completed waves := by
  cases fuel <;> simp [construct_loop, hge]

/-- With fuel at least the number of still-missing tasks, the loop never
runs out of fuel: every iteration that neither finishes nor deadlocks adds
at least one new id to `completed`. -/
theorem construct_loop_not_fuelExhausted (plan : List Task) :
    ∀ fuel completed waves, plan.length ≤ fuel + completed.card →
      (construct_loop plan fuel completed waves).fuelExhausted = false := by
  intro fuel
  induction fuel with
  | zero =>
    intro completed waves hle
    have hge : ¬ completed.card < plan.length := by omega
    rw [construct_loop_done hge]
    rfl
  | succ f ih =>
    intro completed waves hle
    by_cases hlt : completed.card < plan.length
    · rcases hready : ready_tasks plan completed with _ | ⟨t, ts⟩
      · rw [construct_loop_deadlock hlt hready]
        rfl
      · have hcard := card_lt_of_ready_cons hready
        rw [construct_loop_step hlt hready]
        exact ih _ _ (by omega)
    · rw [construct_loop_done hlt]
      rfl

/-- The completed set never shrinks across the wave loop. -/
theorem subset_construct_loop_completedSet (plan : List Task) :
    ∀ fuel completed waves,
      completed ⊆ (construct_loop plan fuel completed waves).completedSet := by
  intro fuel
  induction fuel with
  | zero =>
    intro completed waves
    by_cases hlt : completed.card < plan.length <;>
      simp [construct_loop, hlt, ConstructResult.completedSet]
  | succ f ih =>
    intro completed waves
    by_cases hlt : completed.card < plan.length
    · rcases hready : ready_tasks plan completed with _ | ⟨t, ts⟩
      · rw [construct_loop_deadlock hlt hready]
        exact subset_rfl
      · rw [construct_loop_step hlt hready]
        exact subset_trans Finset.subset_union_left (ih _ _)
    · rw [construct_loop_done hlt]
      exact subset_rfl

/-- Under well-formedness and acyclicity, a proper subset of the plan's ids
always leaves some task ready: pick an incomplete task of minimal rank; all
its dependencies are complete, otherwise a lower-ranked incomplete task
would exist. -/
theorem ready_tasks_ne_nil_of_ranked {plan : List Task}
    (hnd : (plan.map Task.task_id).Nodup) (hclosed : ClosedPlan plan)
    {rank : String → Nat} (hrank : RankedAcyclic plan rank)
    {completed : Finset String} (hlt : completed.card < plan.length) :
    ready_tasks plan completed ≠ [] := by
  have hcardIds : (planIds plan).card = plan.length := by
    simpa [planIds] using List.toFinset_card_of_nodup hnd
  have hS : (plan.toFinset.filter fun t => t.task_id ∉ completed).Nonempty := by
    rw [Finset.nonempty_iff_ne_empty]
    intro hempty
    have hall := Finset.filter_eq_empty_iff.mp hempty
    have hids : planIds plan ⊆ completed := by
      intro x hx
      obtain ⟨t, htp, hti⟩ := List.mem_map.mp (List.mem_toFinset.mp hx)
      have := hall (List.mem_toFinset.mpr htp)
      simp only [not_not] at this
      exact hti ▸ this
    have := Finset.card_le_card hids
    omega
  obtain ⟨t0, ht0S, ht0min⟩ := Finset.exists_min_image _ (fun t => rank t.task_id) hS
  have ht0plan : t0 ∈ plan := List.mem_toFinset.mp (Finset.mem_filter.mp ht0S).1
  have ht0not : t0.task_id ∉ completed := (Finset.mem_filter.mp ht0S).2
  have hdeps : ∀ d ∈ t0.depends_on, d ∈ completed := by
    intro d hd
    by_contra hdnot
    obtain ⟨t1, ht1plan, ht1id⟩ := List.mem_map.mp (hclosed t0 ht0plan d hd)
    have ht1S : t1 ∈ plan.toFinset.filter fun t => t.task_id ∉ completed :=
      Finset.mem_filter.mpr ⟨List.mem_toFinset.mpr ht1plan, ht1id ▸ hdnot⟩
    have hle := ht0min t1 ht1S
    have hlt2 := hrank t0 ht0plan d hd
    rw [ht1id] at hle
    omega
  exact List.ne_nil_of_mem (mem_ready_tasks.mpr ⟨ht0plan, ht0not, hdeps⟩)

/-- Tasks of the plan sharing an id are equal when the plan's ids are
duplicate-free. -/
theorem task_eq_of_id_eq {plan : List Task} (hnd : (plan.map Task.task_id).Nodup)
    {t t' : Task} (ht : t ∈ plan) (ht' : t' ∈ plan)
    (h : t.task_id = t'.task_id) : t = t' :=
  List.inj_on_of_nodup_map hnd ht ht' h

/-- Main invariant of the wave loop on well-formed acyclic plans: the loop
reaches `done` with the full id set, its wave trace lists every id exactly
once, and each wave's tasks had all dependencies completed in strictly
earlier waves. -/
theorem construct_loop_ranked_done {plan : List Task}
    (hnd : (plan.map Task.task_id).Nodup) (hclosed : ClosedPlan plan)
    {rank : String → Nat} (hrank : RankedAcyclic plan rank) :
    ∀ fuel completed waves,
      plan.length ≤ fuel + completed.card →
      completed = waves.flatten.toFinset →
      waves.flatten.Nodup →
      (∀ x ∈ waves.flatten, x ∈ plan.map Task.task_id) →
      wave_order plan waves →
      ∃ waves', construct_loop plan fuel completed waves =
          ConstructResult.done (planIds plan) waves' ∧
        waves'.flatten.Nodup ∧ wave_order plan waves' ∧
        planIds plan = waves'.flatten.toFinset := by
  have hcardIds : (planIds plan).card = plan.length := by
    simpa [planIds] using List.toFinset_card_of_nodup hnd
  intro fuel
  induction fuel with
  | zero =>
    intro completed waves hle hcompl hnodup hidsub horder
    have hge : ¬ completed.card < plan.length := by omega
    have hsub : completed ⊆ planIds plan := by
      rw [hcompl]
      intro x hx
      exact List.mem_toFinset.mpr (hidsub x (List.mem_toFinset.mp hx))
    have heq : completed = planIds plan :=
      Finset.eq_of_subset_of_card_le hsub (by omega)
    exact ⟨waves, by rw [construct_loop_done hge, heq], hnodup, horder, heq ▸ hcompl⟩
  | succ f ih =>
    intro completed waves hle hcompl hnodup hidsub horder
    by_cases hlt : completed.card < plan.length
    · have hsub : completed ⊆ planIds plan := by
        rw [hcompl]
        intro x hx
        exact List.mem_toFinset.mpr (hidsub x (List.mem_toFinset.mp hx))
      rcases hready : ready_tasks plan completed with _ | ⟨t, ts⟩
      · exact absurd hready (ready_tasks_ne_nil_of_ranked hnd hclosed hrank hlt)
      · have hcard := card_lt_of_ready_cons hready
        -- facts about the new wave
        have hreadmem : ∀ t', t' ∈ t :: ts ↔
            t' ∈ plan ∧ t'.task_id ∉ completed ∧ ∀ d ∈ t'.depends_on, d ∈ completed := by
          intro t'
          rw [← hready]
          exact mem_ready_tasks
        have hwid : ∀ x ∈ (t :: ts).map Task.task_id,
            ∃ t' ∈ t :: ts, t'.task_id = x := by
          intro x hx
          obtain ⟨t', ht', hid⟩ := List.mem_map.mp hx
          exact ⟨t', ht', hid⟩
        have hwnodup : ((t :: ts).map Task.task_id).Nodup := by
          have hsl : List.Sublist ((ready_tasks plan completed).map Task.task_id)
              (plan.map Task.task_id) := (List.filter_sublist plan).map Task.task_id
          rw [hready] at hsl
          exact hnd.sublist hsl
        have hwdisj : waves.flatten.Disjoint ((t :: ts).map Task.task_id) := by
          intro x hxflat hxw
          obtain ⟨t', ht', hid⟩ := hwid x hxw
          have := ((hreadmem t').mp ht').2.1
          rw [hid] at this
          exact this (hcompl ▸ List.mem_toFinset.mpr hxflat)
        have hflat2 : (waves ++ [(t :: ts).map Task.task_id]).flatten =
            waves.flatten ++ (t :: ts).map Task.task_id := by simp
        obtain ⟨waves', h1, h2, h3, h4⟩ :=
          ih (completed ∪ ((t :: ts).map Task.task_id).toFinset)
            (waves ++ [(t :: ts).map Task.task_id])
            (by omega)
            (by rw [hflat2, List.toFinset_append, hcompl])
            (by
              rw [hflat2, List.nodup_append]
              exact ⟨hnodup, hwnodup, hwdisj⟩)
            (by
              rw [hflat2]
              intro x hx
              rcases List.mem_append.mp hx with hx | hx
              · exact hidsub x hx
              · obtain ⟨t', ht', hid⟩ := hwid x hx
                exact hid ▸ List.mem_map_of_mem Task.task_id ((hreadmem t').mp ht').1)
            (by
              -- wave_order extends to the appended wave
              intro k hk x hx t'' ht'' hid'' d hd
              rw [List.length_append, List.length_singleton] at hk
              by_cases hkle : k < waves.length
              · rw [List.getD_append _ _ _ _ hkle] at hx
                rw [List.take_append_of_le_length (Nat.le_of_lt hkle)]
                exact horder k hkle x hx t'' ht'' hid'' d hd
              · have hkeq : k = waves.length := by omega
                subst hkeq
                rw [List.getD_append_right _ _ _ _ (Nat.le_refl _),
                  Nat.sub_self] at hx
                simp only [List.getD_cons_zero] at hx
                obtain ⟨t', ht', hid⟩ := hwid x hx
                have hteq : t'' = t' :=
                  task_eq_of_id_eq hnd ht'' ((hreadmem t').mp ht').1 (by rw [hid'', hid])
                have hdin : d ∈ completed := ((hreadmem t').mp ht').2.2 d (hteq ▸ hd)
                rw [List.take_left]
                exact List.mem_toFinset.mp (hcompl ▸ hdin))
        exact ⟨waves', by rw [construct_loop_step hlt hready]; exact h1, h2, h3, h4⟩
    · have hsub : completed ⊆ planIds plan := by
        rw [hcompl]
        intro x hx
        exact List.mem_toFinset.mpr (hidsub x (List.mem_toFinset.mp hx))
      have heq : completed = planIds plan :=
        Finset.eq_of_subset_of_card_le hsub (by omega)
      exact ⟨waves, by rw [construct_loop_done hlt, heq], hnodup, horder, heq ▸ hcompl⟩

theorem mem_flatten_of_getD {waves : List (List String)} {j : Nat} {x : String}
    (hj : j < waves.length) (hx : x ∈ waves.getD j []) : x ∈ waves.flatten := by
  rw [List.getD_eq_getElem waves [] hj] at hx
  exact List.mem_flatten.mpr ⟨waves[j], List.getElem_mem hj, hx⟩

/-- In a duplicate-free wave trace, an id determines its wave index. -/
theorem wave_index_unique :
    ∀ (waves : List (List String)), waves.flatten.Nodup →
      ∀ i k x, i < waves.length → k < waves.length →
        x ∈ waves.getD i [] → x ∈ waves.getD k [] → i = k := by
  intro waves
  induction waves with
  | nil =>
    intro _ i k x hi
    simp at hi
  | cons w ws ih =>
    intro hnd i k x hi hk hxi hxk
    rw [List.flatten_cons, List.nodup_append] at hnd
    obtain ⟨_, hws, hdisj⟩ := hnd
    match i, k with
    | 0, 0 => rfl
    | 0, k + 1 =>
      rw [List.getD_cons_zero] at hxi
      rw [List.getD_cons_succ] at hxk
      exact (hdisj hxi (mem_flatten_of_getD (Nat.lt_of_succ_lt_succ hk) hxk)).elim
    | i + 1, 0 =>
      rw [List.getD_cons_zero] at hxk
      rw [List.getD_cons_succ] at hxi
      exact (hdisj hxk (mem_flatten_of_getD (Nat.lt_of_succ_lt_succ hi) hxi)).elim
    | i + 1, k + 1 =>
      rw [List.getD_cons_succ] at hxi hxk
      exact congrArg Nat.succ
        (ih hws i k x (Nat.lt_of_succ_lt_succ hi) (Nat.lt_of_succ_lt_succ hk) hxi hxk)

/-- C1: for every acyclic (well-formed: duplicate-free ids, dependencies
resolving inside the plan) execution plan, the wave loop of
`SwarmAgent.construct` terminates in the `done` state with the completed
set equal to the full task id set, and every task is marked completed in a
wave strictly after the waves completing all ids in its `depends_on` list
(the wave of each id being unique). -/
theorem claim_C1 (plan : List Task)
    (hnd : (plan.map Task.task_id).Nodup) (hclosed : ClosedPlan plan)
    (rank : String → Nat) (hrank : RankedAcyclic plan rank) :
    ∃ waves, construct plan = ConstructResult.done (planIds plan) waves ∧
      ∀ t ∈ plan, ∀ d ∈ t.depends_on, ∃ j i, j < i ∧ i < waves.length ∧
        t.task_id ∈ waves.getD i [] ∧ d ∈ waves.getD j [] ∧
        (∀ k, k < waves.length → t.task_id ∈ waves.getD k [] → k = i) ∧
        (∀ k, k < waves.length → d ∈ waves.getD k [] → k = j) := by
  obtain ⟨waves, heq, hnodup, horder, hids⟩ :=
    construct_loop_ranked_done hnd hclosed hrank plan.length ∅ []
      (by simp) (by simp) (by simp) (by simp)
      (by intro k hk; simp at hk)
  refine ⟨waves, heq, ?_⟩
  intro t ht d hd
  have hmem : t.task_id ∈ waves.flatten := by
    have : t.task_id ∈ planIds plan :=
      List.mem_toFinset.mpr (List.mem_map_of_mem Task.task_id ht)
    exact List.mem_toFinset.mp (hids ▸ this)
  obtain ⟨w, hw, hxw⟩ := List.mem_flatten.mp hmem
  obtain ⟨i, hi, hwi⟩ := List.mem_iff_getElem.mp hw
  have hxi : t.task_id ∈ waves.getD i [] := by
    rw [List.getD_eq_getElem waves [] hi, hwi]
    exact hxw
  have hdtake : d ∈ (waves.take i).flatten := horder i hi _ hxi t ht rfl d hd
  obtain ⟨w', hw', hdw'⟩ := List.mem_flatten.mp hdtake
  obtain ⟨j, hj, hwj⟩ := List.mem_iff_getElem.mp hw'
  have hjmin : j < min i waves.length := by
    rw [← List.length_take]
    exact hj
  have hjlen : j < waves.length := Nat.lt_of_lt_of_le hjmin (Nat.min_le_right _ _)
  have hji : j < i := Nat.lt_of_lt_of_le hjmin (Nat.min_le_left _ _)
  have htake : (waves.take i)[j] = waves[j] := List.getElem_take waves
  have hdj : d ∈ waves[j] := by
    rw [← hwj] at hdw'
    rw [htake] at hdw'
    exact hdw'
  have hxj : d ∈ waves.getD j [] := by
    rw [List.getD_eq_getElem waves [] hjlen]
    exact hdj
  refine ⟨j, i, hji, hi, hxi, hxj, ?_, ?_⟩
  · intro k hk hxk
    exact wave_index_unique waves hnodup k i _ hk hi hxk hxi
  · intro k hk hxk
    exact wave_index_unique waves hnodup k j _ hk hjlen hxk hxj

/-- C1 witness: the spec §8 diamond plan `A; B dependsOn A; C dependsOn A`
satisfies the hypotheses of `claim_C1`. -/
theorem claim_C1_witness :
    ((demoPlan.map Task.task_id).Nodup ∧ ClosedPlan demoPlan ∧
      RankedAcyclic demoPlan demoRank) ∧
    (∃ waves, construct demoPlan = ConstructResult.done (planIds demoPlan) waves ∧
      ∀ t ∈ demoPlan, ∀ d ∈ t.depends_on, ∃ j i, j < i ∧ i < waves.length ∧
        t.task_id ∈ waves.getD i [] ∧ d ∈ waves.getD j [] ∧
        (∀ k, k < waves.length → t.task_id ∈ waves.getD k [] → k = i) ∧
        (∀ k, k < waves.length → d ∈ waves.getD k [] → k = j)) :=
  ⟨⟨by decide, by decide, by decide⟩,
    claim_C1 demoPlan (by decide) (by decide) demoRank (by decide)⟩

/-- C10: the wave loop terminates for every execution plan, cyclic or not:
the completed set never shrinks, and fuel equal to `len(execution_plan)`
loop iterations is never exhausted because each iteration either exits
(normally or through the deadlock branch) or adds at least one new id. -/
theorem claim_C10 :
    (∀ (plan : List Task) (fuel : Nat) (completed : Finset String)
        (waves : List (List String)),
        completed ⊆ (construct_loop plan fuel completed waves).completedSet) ∧
      ∀ plan : List Task, (construct plan).fuelExhausted = false :=
  ⟨fun plan fuel completed waves =>
      subset_construct_loop_completedSet plan fuel completed waves,
    fun plan => construct_loop_not_fuelExhausted plan plan.length ∅ [] (by simp)⟩

/-- On plans with duplicate-free ids, the ids of a dependency cycle never
enter the completed set, so the wave loop can only stop in the deadlock
branch (or by running out of fuel, excluded separately). -/
theorem construct_loop_cycle_avoid {plan : List Task}
    (hnd : (plan.map Task.task_id).Nodup) {cyc : List String}
    (hcyc : IsDepCycle plan cyc) :
    ∀ fuel completed waves,
      (∀ x ∈ cyc, x ∉ completed) → completed ⊆ planIds plan →
      ∃ c w, (construct_loop plan fuel completed waves = ConstructResult.deadlock c w ∨
          construct_loop plan fuel completed waves = ConstructResult.outOfFuel c w) ∧
        ∀ x ∈ cyc, x ∉ c := by
  have hcardIds : (planIds plan).card = plan.length := by
    simpa [planIds] using List.toFinset_card_of_nodup hnd
  -- the head of the cycle is a plan id
  obtain ⟨t0, ht0, hid0, _⟩ := hcyc.2 0 (List.length_pos.mpr hcyc.1)
  have hhead : cyc.get ⟨0, List.length_pos.mpr hcyc.1⟩ ∈ planIds plan :=
    hid0 ▸ List.mem_toFinset.mpr (List.mem_map_of_mem Task.task_id ht0)
  intro fuel
  induction fuel with
  | zero =>
    intro completed waves havoid hsub
    have hlt : completed.card < plan.length := by
      have hss : completed ⊂ planIds plan :=
        Finset.ssubset_iff_of_subset hsub |>.mpr
          ⟨_, hhead, havoid _ (List.get_mem cyc _ _)⟩
      have := Finset.card_lt_card hss
      omega
    exact ⟨completed, waves, Or.inr (by simp [construct_loop, hlt]), havoid⟩
  | succ f ih =>
    intro completed waves havoid hsub
    have hlt : completed.card < plan.length := by
      have hss : completed ⊂ planIds plan :=
        Finset.ssubset_iff_of_subset hsub |>.mpr
          ⟨_, hhead, havoid _ (List.get_mem cyc _ _)⟩
      have := Finset.card_lt_card hss
      omega
    rcases hready : ready_tasks plan completed with _ | ⟨t, ts⟩
    · exact ⟨completed, waves, Or.inl (construct_loop_deadlock hlt hready), havoid⟩
    · have hreadmem : ∀ t', t' ∈ t :: ts ↔
          t' ∈ plan ∧ t'.task_id ∉ completed ∧ ∀ d ∈ t'.depends_on, d ∈ completed := by
        intro t'
        rw [← hready]
        exact mem_ready_tasks
      have havoid' : ∀ x ∈ cyc,
          x ∉ completed ∪ ((t :: ts).map Task.task_id).toFinset := by
        intro x hxcyc hxin
        rcases Finset.mem_union.mp hxin with hxin | hxin
        · exact havoid x hxcyc hxin
        · obtain ⟨t', ht', hid'⟩ := List.mem_map.mp (List.mem_toFinset.mp hxin)
          obtain ⟨⟨i, hi⟩, hgi⟩ := List.mem_iff_get.mp hxcyc
          obtain ⟨t1, ht1, hid1, hdep1⟩ := hcyc.2 i hi
          have hteq : t' = t1 := by
            refine task_eq_of_id_eq hnd ((hreadmem t').mp ht').1 ht1 ?_
            rw [hid', hid1, hgi]
          have hnextin : cyc.get ⟨(i + 1) % cyc.length, _⟩ ∈ completed :=
            ((hreadmem t').mp ht').2.2 _ (hteq ▸ hdep1)
          exact havoid _ (List.get_mem cyc _ _) hnextin
      have hsub' : completed ∪ ((t :: ts).map Task.task_id).toFinset ⊆ planIds plan := by
        intro x hx
        rcases Finset.mem_union.mp hx with hx | hx
        · exact hsub hx
        · obtain ⟨t', ht', hid'⟩ := List.mem_map.mp (List.mem_toFinset.mp hx)
          exact List.mem_toFinset.mpr
            (hid' ▸ List.mem_map_of_mem Task.task_id ((hreadmem t').mp ht').1)
      obtain ⟨c, w, hres, havoidc⟩ := ih _ _ havoid' hsub'
      exact ⟨c, w, by rw [construct_loop_step hlt hready]; exact hres, havoidc⟩

/-- C4 (amended): a dependency cycle is detected during scheduling, not by
a prior validator: on a plan with duplicate-free ids containing a cycle,
`SwarmAgent.construct` terminates through the deadlock branch (the
circular-dependency error printed inside the wave loop), and the ids of
the cycle are never completed — but tasks not depending on the cycle may
have executed first. -/
theorem claim_C4 (plan : List Task) (cyc : List String)
    (hnd : (plan.map Task.task_id).Nodup) (hcyc : IsDepCycle plan cyc) :
    ∃ c w, construct plan = ConstructResult.deadlock c w ∧ ∀ x ∈ cyc, x ∉ c := by
  obtain ⟨c, w, hres | hres, havoid⟩ :=
    construct_loop_cycle_avoid hnd hcyc plan.length ∅ [] (by simp) (by simp)
  · exact ⟨c, w, hres, havoid⟩
  · have hnf := construct_loop_not_fuelExhausted plan plan.length ∅ [] (by simp)
    rw [hres] at hnf
    exact absurd hnf (by simp [ConstructResult.fuelExhausted])

/-- C4 witness: the spec §8 cycle scenario extended by an independent task
satisfies the hypotheses of the amended claim. -/
theorem claim_C4_witness :
    ((cyclePlan.map Task.task_id).Nodup ∧ IsDepCycle cyclePlan ["X", "Y"]) ∧
      ∃ c w, construct cyclePlan = ConstructResult.deadlock c w ∧
        ∀ x ∈ ["X", "Y"], x ∉ c :=
  ⟨⟨by decide, by decide⟩, claim_C4 cyclePlan ["X", "Y"] (by decide) (by decide)⟩

/-- C4 counterexample: the claim as stated — on a cyclic graph a `Cycle`
error is produced before any task executes and the scheduler never runs —
is false of the code: no validator exists, and on `cyclePlan` (`X ↔ Y` plus
the independent `A`) the wave loop runs, executes a wave containing `A`,
and marks `A` completed before stopping in the deadlock branch. -/
theorem claim_C4_counterexample :
    IsDepCycle cyclePlan ["X", "Y"] ∧
      construct cyclePlan = ConstructResult.deadlock {"A"} [["A"]] ∧
      (construct cyclePlan).wavesOf ≠ [] ∧
      (construct cyclePlan).completedSet ≠ ∅ :=
  ⟨by decide, by decide, by decide, by decide⟩

/-! ### The repair state machine -/

/-- When verification never succeeds, the strategy loop walks through all
remaining strategies, appending exactly one failed record per strategy, and
ends in the exhausted report. -/
theorem repair_loop_all_fail (env : RepairEnv)
    (hfail : ∀ l, (env.verify l).status ≠ "success") :
    ∀ (ks : List Nat) (err : VerificationResult) (history : List AttemptRecord)
      (applied : List FixPlan),
      (repair_loop env ks err history applied).1.status = "failed" ∧
      (repair_loop env ks err history applied).1.strategy_used = none ∧
      (repair_loop env ks err history applied).1.attempts = max_attempts ∧
      ∃ recs, (repair_loop env ks err history applied).2.1 = history ++ recs ∧
        recs.map AttemptRecord.strategy_name = ks.map strategyName ∧
        recs.map AttemptRecord.attempt_number = ks.map (fun k => k + 1) ∧
        recs.map AttemptRecord.success = ks.map (fun _ => false) := by
  intro ks
  induction ks with
  | nil =>
    intro err history applied
    exact ⟨rfl, rfl, rfl, [], by simp [repair_loop], rfl, rfl, rfl⟩
  | cons k rest ih =>
    intro err history applied
    rcases hp : env.propose k err history applied with _ | plan
    · have heq : repair_loop env (k :: rest) err history applied =
          repair_loop env rest err
            (history ++ [⟨k + 1, strategyName k, err, none, false, none⟩]) applied := by
        simp [repair_loop, hp]
      obtain ⟨h1, h2, h3, recs, hrecs, hn, ha, hs⟩ := ih err
        (history ++ [⟨k + 1, strategyName k, err, none, false, none⟩]) applied
      rw [heq]
      refine ⟨h1, h2, h3, ⟨k + 1, strategyName k, err, none, false, none⟩ :: recs, ?_,
        by simp [hn], by simp [ha], by simp [hs]⟩
      rw [hrecs, List.append_assoc]
      rfl
    · by_cases hemp : plan.fixes.isEmpty
      · have heq : repair_loop env (k :: rest) err history applied =
            repair_loop env rest err
              (history ++ [⟨k + 1, strategyName k, err, some plan, false, none⟩])
              applied := by
          simp [repair_loop, hp, hemp]
        obtain ⟨h1, h2, h3, recs, hrecs, hn, ha, hs⟩ := ih err
          (history ++ [⟨k + 1, strategyName k, err, some plan, false, none⟩]) applied
        rw [heq]
        refine ⟨h1, h2, h3, ⟨k + 1, strategyName k, err, some plan, false, none⟩ :: recs,
          ?_, by simp [hn], by simp [ha], by simp [hs]⟩
        rw [hrecs, List.append_assoc]
        rfl
      · have hv := hfail (applied ++ [plan])
        have heq : repair_loop env (k :: rest) err history applied =
            repair_loop env rest (env.verify (applied ++ [plan]))
              (history ++ [⟨k + 1, strategyName k, err, some plan, false,
                some (env.verify (applied ++ [plan]))⟩])
              (applied ++ [plan]) := by
          simp [repair_loop, hp, hemp, hv]
        obtain ⟨h1, h2, h3, recs, hrecs, hn, ha, hs⟩ := ih (env.verify (applied ++ [plan]))
          (history ++ [⟨k + 1, strategyName k, err, some plan, false,
            some (env.verify (applied ++ [plan]))⟩]) (applied ++ [plan])
        rw [heq]
        refine ⟨h1, h2, h3, ⟨k + 1, strategyName k, err, some plan, false,
          some (env.verify (applied ++ [plan]))⟩ :: recs, ?_,
          by simp [hn], by simp [ha], by simp [hs]⟩
        rw [hrecs, List.append_assoc]
        rfl

/-- C2: with a verification oracle that fails on every call,
`RepairAgent.repair` invokes all 8 strategies, returns the failed report
with `attempts = 8`, and its history holds exactly 8 records, one per
strategy, in the escalation order S0..S7 with attempt numbers 1..8. -/
theorem claim_C2 (env : RepairEnv) (initial_error : VerificationResult)
    (hfail : ∀ l, (env.verify l).status ≠ "success") :
    (repair env initial_error).1.status = "failed" ∧
    (repair env initial_error).1.strategy_used = none ∧
    (repair env initial_error).1.attempts = 8 ∧
    (repair env initial_error).2.1.length = 8 ∧
    (repair env initial_error).2.1.map AttemptRecord.strategy_name = strategyNames ∧
    (repair env initial_error).2.1.map AttemptRecord.attempt_number =
      [1, 2, 3, 4, 5, 6, 7, 8] := by
  obtain ⟨h1, h2, h3, recs, hrecs, hn, ha, _⟩ :=
    repair_loop_all_fail env hfail (List.range 8) initial_error [] []
  have hrecs' : (repair env initial_error).2.1 = recs := by
    rw [show (repair env initial_error).2.1 =
      (repair_loop env (List.range 8) initial_error [] []).2.1 from rfl, hrecs]
    rfl
  refine ⟨h1, h2, h3, ?_, ?_, ?_⟩
  · have := congrArg List.length hn
    simp only [List.length_map] at this
    rw [hrecs', this]
    rfl
  · rw [hrecs', hn]
    rfl
  · rw [hrecs', ha]
    rfl

/-- C2 witness: the all-fail oracle `envNoFix` satisfies the hypothesis of
`claim_C2`. -/
theorem claim_C2_witness :
    (∀ l, (envNoFix.verify l).status ≠ "success") ∧
    ((repair envNoFix failRes).1.status = "failed" ∧
      (repair envNoFix failRes).1.strategy_used = none ∧
      (repair envNoFix failRes).1.attempts = 8 ∧
      (repair envNoFix failRes).2.1.length = 8 ∧
      (repair envNoFix failRes).2.1.map AttemptRecord.strategy_name = strategyNames ∧
      (repair envNoFix failRes).2.1.map AttemptRecord.attempt_number =
        [1, 2, 3, 4, 5, 6, 7, 8]) :=
  ⟨fun _ => (by decide : ("failed" : String) ≠ "success"),
    claim_C2 envNoFix failRes fun _ => (by decide : ("failed" : String) ≠ "success")⟩

/-- C3: if the loop reaches strategy `Sk` (with any remaining strategy list,
current error, history and applied state) and `Sk` proposes a plan with a
nonempty fixes list whose application makes the next verification succeed,
the machine stops at once: it returns the success report with
`strategy_used = Sk` and `attempts = k + 1`, appends a single success
record, and the result does not depend on the remaining strategies — in
particular with `k = 2` the run stops at attempt 3 and S3..S7 are never
invoked. -/
theorem claim_C3 (env : RepairEnv) (k : Nat) (rest : List Nat)
    (err : VerificationResult) (history : List AttemptRecord)
    (applied : List FixPlan) (plan : FixPlan)
    (hp : env.propose k err history applied = some plan)
    (hne : plan.fixes ≠ [])
    (hv : (env.verify (applied ++ [plan])).status = "success") :
    repair_loop env (k :: rest) err history applied =
      (⟨"success", some (strategyName k), k + 1, none⟩,
       history ++ [⟨k + 1, strategyName k, err, some plan, true, none⟩],
       applied ++ [plan]) := by
  have hemp : plan.fixes.isEmpty = false := by
    rcases hfx : plan.fixes with _ | ⟨a, l⟩
    · exact absurd hfx hne
    · rfl
  simp [repair_loop, hp, hemp, hv]

/-- C3 witness: under `envS2` (S0 and S1 propose nothing, S2 proposes
`demoFixPlan`, verification succeeds once a plan is applied) the loop
reaching S2 at attempt 3 stops there with the success report. -/
theorem claim_C3_witness :
    (envS2.propose 2 failRes histS2 [] = some demoFixPlan ∧
      demoFixPlan.fixes ≠ [] ∧
      (envS2.verify ([] ++ [demoFixPlan])).status = "success") ∧
    repair_loop envS2 (2 :: [3, 4, 5, 6, 7]) failRes histS2 [] =
      (⟨"success", some (strategyName 2), 2 + 1, none⟩,
       histS2 ++ [⟨2 + 1, strategyName 2, failRes, some demoFixPlan, true, none⟩],
       [] ++ [demoFixPlan]) :=
  ⟨⟨by decide, by decide, by decide⟩,
    claim_C3 envS2 2 [3, 4, 5, 6, 7] failRes histS2 [] demoFixPlan
      (by decide) (by decide) (by decide)⟩

/-- C9: the repair history is append-only.  First conjunct: from any state,
the history the loop was entered with is an untouched initial segment of
the history at exit (and hence of the history at every later step, each of
which is such an entry state).  Second conjunct: one strategy invocation
appends exactly one record — it either returns at once with `history ++
[rec]`, or recurses on `history ++ [rec]`; no earlier record is altered or
removed. -/
theorem claim_C9 :
    (∀ (env : RepairEnv) (ks : List Nat) (err : VerificationResult)
        (history : List AttemptRecord) (applied : List FixPlan),
        ∃ t, (repair_loop env ks err history applied).2.1 = history ++ t) ∧
      ∀ (env : RepairEnv) (k : Nat) (rest : List Nat) (err : VerificationResult)
        (history : List AttemptRecord) (applied : List FixPlan),
        ∃ rec, (∃ rep applied', repair_loop env (k :: rest) err history applied =
            (rep, history ++ [rec], applied')) ∨
          ∃ err' applied', repair_loop env (k :: rest) err history applied =
            repair_loop env rest err' (history ++ [rec]) applied' := by
  constructor
  · intro env ks
    induction ks with
    | nil =>
      intro err history applied
      exact ⟨[], by simp [repair_loop]⟩
    | cons k rest ih =>
      intro err history applied
      rcases hp : env.propose k err history applied with _ | plan
      · obtain ⟨t, ht⟩ := ih err
          (history ++ [⟨k + 1, strategyName k, err, none, false, none⟩]) applied
        refine ⟨⟨k + 1, strategyName k, err, none, false, none⟩ :: t, ?_⟩
        rw [show repair_loop env (k :: rest) err history applied =
            repair_loop env rest err
              (history ++ [⟨k + 1, strategyName k, err, none, false, none⟩]) applied by
          simp [repair_loop, hp], ht, List.append_assoc]
        rfl
      · by_cases hemp : plan.fixes.isEmpty
        · obtain ⟨t, ht⟩ := ih err
            (history ++ [⟨k + 1, strategyName k, err, some plan, false, none⟩]) applied
          refine ⟨⟨k + 1, strategyName k, err, some plan, false, none⟩ :: t, ?_⟩
          rw [show repair_loop env (k :: rest) err history applied =
              repair_loop env rest err
                (history ++ [⟨k + 1, strategyName k, err, some plan, false, none⟩])
                applied by simp [repair_loop, hp, hemp], ht, List.append_assoc]
          rfl
        · by_cases hv : (env.verify (applied ++ [plan])).status = "success"
          · refine ⟨[⟨k + 1, strategyName k, err, some plan, true, none⟩], ?_⟩
            simp [repair_loop, hp, hemp, hv]
          · obtain ⟨t, ht⟩ := ih (env.verify (applied ++ [plan]))
              (history ++ [⟨k + 1, strategyName k, err, some plan, false,
                some (env.verify (applied ++ [plan]))⟩]) (applied ++ [plan])
            refine ⟨⟨k + 1, strategyName k, err, some plan, false,
              some (env.verify (applied ++ [plan]))⟩ :: t, ?_⟩
            rw [show repair_loop env (k :: rest) err history applied =
                repair_loop env rest (env.verify (applied ++ [plan]))
                  (history ++ [⟨k + 1, strategyName k, err, some plan, false,
                    some (env.verify (applied ++ [plan]))⟩]) (applied ++ [plan]) by
              simp [repair_loop, hp, hemp, hv], ht, List.append_assoc]
            rfl
  · intro env k rest err history applied
    rcases hp : env.propose k err history applied with _ | plan
    · exact ⟨⟨k + 1, strategyName k, err, none, false, none⟩,
        Or.inr ⟨err, applied, by simp [repair_loop, hp]⟩⟩
    · by_cases hemp : plan.fixes.isEmpty
      · exact ⟨⟨k + 1, strategyName k, err, some plan, false, none⟩,
          Or.inr ⟨err, applied, by simp [repair_loop, hp, hemp]⟩⟩
      · by_cases hv : (env.verify (applied ++ [plan])).status = "success"
        · exact ⟨⟨k + 1, strategyName k, err, some plan, true, none⟩,
            Or.inl ⟨⟨"success", some (strategyName k), k + 1, none⟩, applied ++ [plan],
              by simp [repair_loop, hp, hemp, hv]⟩⟩
        · exact ⟨⟨k + 1, strategyName k, err, some plan, false,
            some (env.verify (applied ++ [plan]))⟩,
            Or.inr ⟨env.verify (applied ++ [plan]), applied ++ [plan],
              by simp [repair_loop, hp, hemp, hv]⟩⟩

/-! ### Admission control and the adaptive limit -/

/-- C5: evaluation of the wave loop at the failing input.  The wave loop of
`SwarmAgent.construct` launches the entire ready set in one
`asyncio.gather` with no admission gate, so a wave of five independent
tasks runs five Generator calls concurrently, exceeding the limit of 2
demanded by the claim and by the repo's own concurrency tests. -/
theorem claim_C5 :
    (construct fiveTaskPlan).wavesOf.map List.length = [5] ∧
      ∃ w ∈ (construct fiveTaskPlan).wavesOf, 2 < w.length :=
  ⟨by decide, by decide⟩

/-- C6: `AdaptiveConcurrency.adjust_workers` is exactly the spec's
four-branch `compute_limit` policy, with `cpu_critical =
limits.max_cpu_percent`, `memory_critical = limits.max_ram_percent`,
`cpu_warning = 80` and `memory_warning = 75` (the hardcoded thresholds of
the source). -/
theorem claim_C6 (limits : ResourceLimits) (ram cpu : ℚ) (current : ℤ) :
    adjust_workers limits ram cpu current =
      compute_limit_spec
        ⟨limits.max_cpu_percent, limits.max_ram_percent, 80, 75,
          limits.min_workers, limits.max_workers⟩ cpu ram current := by
  unfold adjust_workers compute_limit_spec
  dsimp only
  by_cases h1 : ram > limits.max_ram_percent ∨ cpu > limits.max_cpu_percent
  · rw [if_pos h1, if_pos h1.symm]
  · rw [if_neg h1,
      if_neg (show ¬(cpu > limits.max_cpu_percent ∨ ram > limits.max_ram_percent) from
        fun h => h1 h.symm)]
    by_cases h2 : ram > 75 ∨ cpu > 80
    · rw [if_pos h2, if_pos h2.symm]
    · rw [if_neg h2,
        if_neg (show ¬(cpu > (80 : ℚ) ∨ ram > (75 : ℚ)) from fun h => h2 h.symm)]
      by_cases h3 : ram < 60 ∧ cpu < 60 ∧ current < limits.max_workers
      · rw [if_pos h3,
          if_pos (show cpu < 60 ∧ ram < 60 ∧ current < limits.max_workers from
            ⟨h3.2.1, h3.1, h3.2.2⟩)]
        have := h3.2.2
        omega
      · rw [if_neg h3,
          if_neg (show ¬(cpu < 60 ∧ ram < 60 ∧ current < limits.max_workers) from
            fun h => h3 ⟨h.2.1, h.1, h.2.2⟩)]

/-- C7: `adjust_workers` is monotone at the critical boundary — with the
memory sample and the previous limit fixed (the previous limit being a
legal `ConcurrencyLimit`, i.e. at least `min_workers`), raising the CPU
sample from any value to one above the critical threshold never yields a
larger limit. -/
theorem claim_C7 (limits : ResourceLimits) (ram cpu1 cpu2 : ℚ) (prev : ℤ)
    (hprev : limits.min_workers ≤ prev)
    (hcrit : cpu2 > limits.max_cpu_percent) :
    adjust_workers limits ram cpu2 prev ≤ adjust_workers limits ram cpu1 prev := by
  unfold adjust_workers
  rw [if_pos (Or.inr hcrit)]
  by_cases h1 : ram > limits.max_ram_percent ∨ cpu1 > limits.max_cpu_percent
  · rw [if_pos h1]
  · rw [if_neg h1]
    by_cases h2 : ram > 75 ∨ cpu1 > 80
    · rw [if_pos h2]
      omega
    · rw [if_neg h2]
      by_cases h3 : ram < 60 ∧ cpu1 < 60 ∧ prev < limits.max_workers
      · rw [if_pos h3]
        have := h3.2.2
        omega
      · rw [if_neg h3]
        omega

/-- C7 witness: with the default limits, previous limit 3, memory at 50%,
raising CPU from 10% to 90% (above critical 85%) does not increase the
limit. -/
theorem claim_C7_witness :
    (defaultLimits.min_workers ≤ 3 ∧ (90 : ℚ) > defaultLimits.max_cpu_percent) ∧
      adjust_workers defaultLimits 50 90 3 ≤ adjust_workers defaultLimits 50 10 3 :=
  ⟨⟨by decide, by norm_num [defaultLimits]⟩,
    claim_C7 defaultLimits 50 10 90 3 (by decide) (by norm_num [defaultLimits])⟩

/-! ### Fix application -/

theorem read_write_self (path content : String) :
    ∀ fs : List (String × String),
      read_file (write_file fs path content) path = some content := by
  have hmap : ∀ fs : List (String × String), fs.any (fun p => p.1 = path) = true →
      read_file (fs.map fun p => if p.1 = path then (path, content) else p) path =
        some content := by
    intro fs
    induction fs with
    | nil => intro h; simp at h
    | cons q ps ih =>
      intro hany
      by_cases hq : q.1 = path
      · simp [read_file, List.find?, hq]
      · have hps : ps.any (fun p => p.1 = path) = true := by
          simp only [List.any_cons, Bool.or_eq_true, decide_eq_true_eq] at hany
          rcases hany with h | h
          · exact absurd h hq
          · exact h
        simpa [read_file, List.find?, hq] using ih hps
  have happ : ∀ fs : List (String × String), ¬ fs.any (fun p => p.1 = path) = true →
      read_file (fs ++ [(path, content)]) path = some content := by
    intro fs
    induction fs with
    | nil => intro _; simp [read_file, List.find?]
    | cons q ps ih =>
      intro hany
      simp only [List.any_cons, Bool.or_eq_true, decide_eq_true_eq] at hany
      push_neg at hany
      simpa [read_file, List.find?, hany.1] using ih (by simpa using hany.2)
  intro fs
  unfold write_file
  by_cases hany : fs.any (fun p => p.1 = path) = true
  · rw [if_pos hany]
    exact hmap fs hany
  · rw [if_neg hany]
    exact happ fs hany

theorem read_write_other (path content q : String) (hq : q ≠ path) :
    ∀ fs : List (String × String),
      read_file (write_file fs path content) q = read_file fs q := by
  have hmap : ∀ fs : List (String × String),
      read_file (fs.map fun p => if p.1 = path then (path, content) else p) q =
        read_file fs q := by
    intro fs
    induction fs with
    | nil => rfl
    | cons p ps ih =>
      by_cases hp : p.1 = path
      · have hpq : ¬ p.1 = q := by
          rw [hp]
          exact fun h => hq h.symm
        have hpq' : ¬ path = q := fun h => hq h.symm
        simpa [read_file, List.find?, hp, hpq, hpq'] using ih
      · by_cases hpq : p.1 = q
        · simp [read_file, List.find?, hp, hpq, hq]
        · simpa [read_file, List.find?, hp, hpq] using ih
  have happ : ∀ fs : List (String × String),
      read_file (fs ++ [(path, content)]) q = read_file fs q := by
    intro fs
    induction fs with
    | nil =>
      have hpq' : ¬ path = q := fun h => hq h.symm
      simp [read_file, List.find?, hpq']
    | cons p ps ih =>
      by_cases hpq : p.1 = q
      · simp [read_file, List.find?, hpq]
      · simpa [read_file, List.find?, hpq] using ih
  intro fs
  unfold write_file
  by_cases hany : fs.any (fun p => p.1 = path) = true
  · rw [if_pos hany]
    exact hmap fs
  · rw [if_neg hany]
    exact happ fs

/-- Fixes that never touch path `p` (or are skipped as malformed) leave the
content at `p` unchanged. -/
theorem apply_fix_preserves :
    ∀ (l : List Fix) (fs : List (String × String)) (p : String),
      (∀ gx ∈ l, gx.file_path ≠ p ∨ gx.file_path = "" ∨ gx.new_content = "") →
      read_file (apply_fix fs l) p = read_file fs p := by
  intro l
  induction l with
  | nil => intro fs p _; rfl
  | cons gx rest ih =>
    intro fs p hl
    by_cases hskip : gx.file_path = "" ∨ gx.new_content = ""
    · have : apply_fix fs (gx :: rest) = apply_fix fs rest := by
        simp [apply_fix, hskip]
      rw [this]
      exact ih fs p fun g hg => hl g (List.mem_cons_of_mem gx hg)
    · have hstep : apply_fix fs (gx :: rest) =
          apply_fix (write_file fs gx.file_path gx.new_content) rest := by
        simp [apply_fix, hskip]
      have hne : gx.file_path ≠ p := by
        rcases hl gx (List.mem_cons_self gx rest) with h | h | h
        · exact h
        · exact absurd (Or.inl h) hskip
        · exact absurd (Or.inr h) hskip
      rw [hstep, ih _ p fun g hg => hl g (List.mem_cons_of_mem gx hg),
        read_write_other gx.file_path gx.new_content p (fun h => hne h.symm) fs]

/-- C8 (amended): `apply_fix` overwrites (creating if absent) the file of
every triple whose `file_path` and `new_content` are non-empty — the
content of the last such triple for a path wins — while triples with an
empty (or missing) `file_path` or `new_content` are skipped as malformed
and contribute nothing; `_run_commands` then runs every post-fix command in
listed order, recording each exit code, and a failing command stops
neither the remaining commands nor the apply step. -/
theorem claim_C8 :
    (∀ (fs : List (String × String)) (l₁ l₂ : List Fix) (fx : Fix),
        fx.file_path ≠ "" → fx.new_content ≠ "" →
        (∀ gx ∈ l₂, gx.file_path ≠ fx.file_path ∨ gx.file_path = "" ∨
          gx.new_content = "") →
        read_file (apply_fix fs (l₁ ++ fx :: l₂)) fx.file_path =
          some fx.new_content) ∧
    (∀ (fs : List (String × String)) (fx : Fix),
        fx.file_path = "" ∨ fx.new_content = "" → apply_fix fs [fx] = fs) ∧
    ∀ (cmds : List String) (cmd_exit : String → Int),
      (run_commands cmds cmd_exit).map CmdRecord.cmd = cmds ∧
        ∀ r ∈ run_commands cmds cmd_exit, r.exit_code = cmd_exit r.cmd := by
  refine ⟨?_, ?_, ?_⟩
  · intro fs l₁ l₂ fx hpath hcontent hafter
    have hsplit : apply_fix fs (l₁ ++ fx :: l₂) =
        apply_fix (apply_fix fs l₁) (fx :: l₂) := by
      simp [apply_fix, List.foldl_append]
    have hstep : apply_fix (apply_fix fs l₁) (fx :: l₂) =
        apply_fix (write_file (apply_fix fs l₁) fx.file_path fx.new_content) l₂ := by
      simp [apply_fix, fun h => hpath h, fun h => hcontent h]
    rw [hsplit, hstep, apply_fix_preserves l₂ _ fx.file_path hafter,
      read_write_self fx.file_path fx.new_content (apply_fix fs l₁)]
  · intro fs fx hskip
    simp [apply_fix, hskip]
  · intro cmds cmd_exit
    constructor
    · induction cmds with
      | nil => rfl
      | cons c cs ih => simpa [run_commands] using ih
    · intro r hr
      obtain ⟨c, _, hc⟩ := List.mem_map.mp hr
      rw [← hc]

/-- C8 witness: appending the well-formed fix `fixB` to an empty plan
overwrites `b.txt` with its content. -/
theorem claim_C8_witness :
    (fixB.file_path ≠ "" ∧ fixB.new_content ≠ "" ∧
      ∀ gx ∈ ([] : List Fix), gx.file_path ≠ fixB.file_path ∨
        gx.file_path = "" ∨ gx.new_content = "") ∧
    read_file (apply_fix demoFS ([] ++ fixB :: [])) fixB.file_path =
      some fixB.new_content :=
  ⟨⟨by decide, by decide, by decide⟩,
    claim_C8.1 demoFS [] [] fixB (by decide) (by decide) (by decide)⟩

/-- C8 counterexample: the claim as stated — every triple of the plan
overwrites its file — fails on a triple with empty `new_content`:
`apply_fix` skips it (Python's `if not file_path or not new_content`
truthiness check), so the file keeps its old content instead of becoming
empty. -/
theorem claim_C8_counterexample :
    emptyContentFix.new_content = "" ∧
      apply_fix demoFS [emptyContentFix] = demoFS ∧
      read_file (apply_fix demoFS [emptyContentFix]) "a.txt" = some "old" ∧
      some "old" ≠ some emptyContentFix.new_content :=
  ⟨by decide, by decide, by decide, by decide⟩

end Omni

